import Mathlib

/-!
Formal model of the SquishyID codec (src/lib.rs): construction of a codec
from a key string, positional base-`length` encoding of unsigned 64-bit
integers to strings, and checked decoding of strings back to integers.

Machine integers (`u64`, `usize`) are modelled as `Nat` with explicit
bounds: the checked `u64` operations compare against `U64_MAX` and return
`none` exactly when the corresponding Rust `checked_*` operation reports
overflow.  The `HashMap<char, usize>` is modelled as a function
`Char → Option Nat`, with `insert` as pointwise update and the
`is_some` duplicate test on the previous binding.
-/

/-- Largest value of the Rust type `u64`. -/
def U64_MAX : Nat := 2 ^ 64 - 1

/-- Model of `u64::checked_pow`: `some (a ^ b)` when the power fits in a
`u64`, `none` when it overflows. -/
def checked_pow (a b : Nat) : Option Nat :=
  if a ^ b ≤ U64_MAX then some (a ^ b) else none

/-- Model of `u64::checked_mul`. -/
def checked_mul (a b : Nat) : Option Nat :=
  if a * b ≤ U64_MAX then some (a * b) else none

/-- Model of `u64::checked_add`. -/
def checked_add (a b : Nat) : Option Nat :=
  if a + b ≤ U64_MAX then some (a + b) else none

/-- The `SquishyID` struct of src/lib.rs.  Its fields are private in the
Rust source, so every value reaching `encode`/`decode` was produced by
`SquishyID.new`; the two proof fields record the invariants that `new`
establishes and that the loop in `encode` relies on (base at least 2,
lookup table of length `length`). -/
structure SquishyID where
  length : Nat
  characters_to_positions : Char → Option Nat
  positions_to_characters : List Char
  two_le_length : 2 ≤ length
  table_length : positions_to_characters.length = length

/-- The `for (position, &character) in positions_to_characters.iter().enumerate()`
loop of `SquishyID::new`: inserts each character with its position into the
map, failing on the first character whose previous binding `is_some`. -/
def insertChars : List Char → Nat → (Char → Option Nat) →
    Except String (Char → Option Nat)
  | [], _, m => .ok m
  | character :: rest, position, m =>
    if (m character).isSome then
      .error "Key must contain unique characters."
    else
      insertChars rest (position + 1)
        (fun x => if x = character then some position else m x)

/-- `SquishyID::new`: collect the key's characters, reject keys of fewer
than 2 characters, then build the character-to-position map rejecting
duplicates. -/
def SquishyID.new (key : String) : Except String SquishyID :=
  if h : key.toList.length < 2 then
    .error "Key must contain at least 2 characters."
  else
    match insertChars key.toList 0 (fun _ => none) with
    | .error e => .error e
    | .ok characters_to_positions =>
        .ok ⟨key.toList.length, characters_to_positions,
             key.toList, by omega, rfl⟩

/-- The `loop` of `SquishyID::encode`: push the character for
`decoded % length`, divide `decoded` by `length`, stop when the quotient
is zero.  Produces the digit characters least-significant first.
The `Vec` indexing `positions_to_characters[position]` is modelled with
`List.getD` (the index is proved in bounds separately). -/
def SquishyID.encodeLoop (s : SquishyID) (decoded : Nat) : List Char :=
  let position : Nat := decoded % s.length
  let c : Char := s.positions_to_characters.getD position 'a'
  if h : decoded / s.length = 0 then
    [c]
  else
    c :: s.encodeLoop (decoded / s.length)
termination_by decoded
decreasing_by
  have h2 := s.two_le_length
  refine Nat.div_lt_self ?_ (by omega)
  rcases Nat.eq_zero_or_pos decoded with h0 | h0
  · subst h0
    simp at h
  · exact h0

/-- `SquishyID::encode`: run the loop and reverse the collected digits. -/
def SquishyID.encode (s : SquishyID) (decoded : Nat) : String :=
  String.mk (s.encodeLoop decoded).reverse

/-- The `for (position, character) in encoded.chars().rev().enumerate()`
loop of `SquishyID::decode`: look the character up (failing on an unknown
character), then accumulate `length ^ position * factor + decoded` through
the checked operations, failing on overflow. -/
def SquishyID.decodeLoop (s : SquishyID) :
    List Char → Nat → Nat → Except String Nat
  | [], _, decoded => .ok decoded
  | character :: rest, position, decoded =>
    match s.characters_to_positions character with
    | none => .error "Encoded value contains character not present in key."
    | some factor =>
      match ((checked_pow s.length position).bind
               (fun a => checked_mul a factor)).bind
              (fun a => checked_add a decoded) with
      | none => .error "Encoded value too big to decode."
      | some bigger_decoded => s.decodeLoop rest (position + 1) bigger_decoded

/-- `SquishyID::decode`: reject the empty string (`encoded.len() == 0`,
which for a Rust string holds exactly when it has no characters), then run
the accumulation loop over the characters in reverse order. -/
def SquishyID.decode (s : SquishyID) (encoded : String) : Except String Nat :=
  if encoded.toList.isEmpty then
    .error "Encoded value must contain at least 1 character."
  else
    s.decodeLoop encoded.toList.reverse 0 0

/-- Value of a digit list written least-significant digit first. -/
def lsbVal (b : Nat) : List Nat → Nat
  | [] => 0
  | d :: ds => d + b * lsbVal b ds

/-- Value of a digit list written most-significant digit first. -/
def msbVal (b : Nat) : List Nat → Nat
  | [] => 0
  | d :: ds => d * b ^ ds.length + msbVal b ds

/-- The base-`b` digits of `v`, least-significant first (mathematical
mirror of the division loop in `encode`). -/
def natDigits (b v : Nat) : List Nat :=
  if h : b ≤ 1 ∨ v / b = 0 then
    [v % b]
  else
    (v % b) :: natDigits b (v / b)
termination_by v
decreasing_by
  push_neg at h
  refine Nat.div_lt_self ?_ (by omega)
  rcases Nat.eq_zero_or_pos v with h0 | h0
  · subst h0
    simp at h
  · exact h0

/-- The digit values of a character list under a codec's map (unknown
characters give 0; only used on lists of known characters). -/
def factorsOf (c : SquishyID) (l : List Char) : List Nat :=
  l.map (fun ch => (c.characters_to_positions ch).getD 0)

/-- The mathematical value of a string read as a base-`length` numeral,
most-significant digit first. -/
def strVal (c : SquishyID) (s : String) : Nat :=
  msbVal c.length (factorsOf c s.toList)

/-- The character representing digit 0. -/
def zeroChar (c : SquishyID) : Char :=
  c.positions_to_characters.getD 0 'a'

/-- A string is canonical when it carries no superfluous leading
zero-digit: it has at most one character, or its first character is not
the zero digit. -/
def isCanonical (c : SquishyID) (s : String) : Prop :=
  s.toList.length ≤ 1 ∨ s.toList.headD 'a' ≠ zeroChar c

/-- `s` with its superfluous leading zero-digits stripped (the all-zero
string collapses to the single zero digit). -/
def stripZeros (c : SquishyID) (s : String) : String :=
  let r := s.toList.dropWhile (fun ch => ch = zeroChar c)
  String.mk (if r.isEmpty then [zeroChar c] else r)

/-- A default codec value, used only to extract the codec from a
successful construction. -/
def defaultCodec : SquishyID :=
  ⟨2, fun _ => none, ['a', 'b'], by omega, rfl⟩

/-- The codec constructed by `SquishyID.new key`, or `defaultCodec` if
construction fails. -/
def mkCodec (key : String) : SquishyID :=
  match SquishyID.new key with
  | .ok c => c
  | .error _ => defaultCodec

/-- The two-character codec built from the key "ab". -/
def cAB : SquishyID := mkCodec "ab"

example : SquishyID.new "ab" = .ok cAB := rfl
example : SquishyID.decode cAB "ba" = .ok 2 := rfl
example : SquishyID.decode cAB "" =
    .error "Encoded value must contain at least 1 character." := rfl
example : SquishyID.decode cAB "x" =
    .error "Encoded value contains character not present in key." := rfl

/-! ### Properties of the map-building loop -/

theorem insertChars_ok_not_mem (cs : List Char) (pos : Nat)
    (m m' : Char → Option Nat) (h : insertChars cs pos m = .ok m') :
    ∀ ch, ch ∉ cs → m' ch = m ch := by
  induction cs generalizing pos m with
  | nil =>
    intro ch _
    simp only [insertChars] at h
    injection h with h
    rw [h]
  | cons c0 rest ih =>
    intro ch hch
    simp only [insertChars] at h
    split at h
    · cases h
    · have hne : ch ≠ c0 := fun hc => hch (hc ▸ List.mem_cons_self c0 rest)
      have hrest : ch ∉ rest := fun hc => hch (List.mem_cons_of_mem c0 hc)
      have := ih (pos + 1) _ h ch hrest
      simpa [hne] using this

theorem insertChars_ok_mem_none (cs : List Char) (pos : Nat)
    (m m' : Char → Option Nat) (h : insertChars cs pos m = .ok m') :
    ∀ ch ∈ cs, m ch = none := by
  induction cs generalizing pos m with
  | nil => intro ch hch; cases hch
  | cons c0 rest ih =>
    intro ch hch
    simp only [insertChars] at h
    split at h
    · cases h
    · rcases List.mem_cons.mp hch with hc | hc
      · subst hc
        have hs := ‹¬ (m ch).isSome = true›
        cases hmc : m ch with
        | none => rfl
        | some v => rw [hmc] at hs; simp at hs
      · have := ih (pos + 1) _ h ch hc
        by_cases hx : ch = c0
        · subst hx
          simp at this
        · simpa [hx] using this

theorem insertChars_ok_nodup (cs : List Char) (pos : Nat)
    (m m' : Char → Option Nat) (h : insertChars cs pos m = .ok m') :
    cs.Nodup := by
  induction cs generalizing pos m with
  | nil => exact List.nodup_nil
  | cons c0 rest ih =>
    simp only [insertChars] at h
    split at h
    · cases h
    · refine List.nodup_cons.mpr ⟨?_, ih (pos + 1) _ h⟩
      intro hmem
      have := insertChars_ok_mem_none rest (pos + 1) _ _ h c0 hmem
      simp at this

theorem insertChars_ok_getElem (cs : List Char) (pos : Nat)
    (m m' : Char → Option Nat) (h : insertChars cs pos m = .ok m') :
    ∀ j, (hj : j < cs.length) → m' (cs[j]) = some (pos + j) := by
  induction cs generalizing pos m with
  | nil => intro j hj; cases hj
  | cons c0 rest ih =>
    intro j hj
    simp only [insertChars] at h
    split at h
    · cases h
    · match j with
      | 0 =>
        have hnm : c0 ∉ rest := by
          intro hmem
          have := insertChars_ok_mem_none rest (pos + 1) _ _ h c0 hmem
          simp at this
        have := insertChars_ok_not_mem rest (pos + 1) _ _ h c0 hnm
        simpa using this
      | j + 1 =>
        have := ih (pos + 1) _ h j (by simpa using Nat.lt_of_succ_lt_succ hj)
        have harith : pos + 1 + j = pos + (j + 1) := by omega
        simpa [harith] using this

theorem insertChars_error_msg (cs : List Char) (pos : Nat)
    (m : Char → Option Nat) (e : String)
    (h : insertChars cs pos m = .error e) :
    e = "Key must contain unique characters." := by
  induction cs generalizing pos m with
  | nil => simp only [insertChars] at h; cases h
  | cons c0 rest ih =>
    simp only [insertChars] at h
    split at h
    · injection h with h
      exact h.symm
    · exact ih (pos + 1) _ h

theorem insertChars_ok_of_nodup (cs : List Char) (pos : Nat)
    (m : Char → Option Nat) (hnd : cs.Nodup)
    (hdisj : ∀ ch ∈ cs, m ch = none) :
    ∃ m', insertChars cs pos m = .ok m' := by
  induction cs generalizing pos m with
  | nil => exact ⟨m, rfl⟩
  | cons c0 rest ih =>
    have h0 : m c0 = none := hdisj c0 (List.mem_cons_self c0 rest)
    rcases List.nodup_cons.mp hnd with ⟨hnm, hnd'⟩
    have hdisj' : ∀ ch ∈ rest,
        (fun x => if x = c0 then some pos else m x) ch = none := by
      intro ch hch
      have hne : ch ≠ c0 := fun hc => hnm (hc ▸ hch)
      simpa [hne] using hdisj ch (List.mem_cons_of_mem c0 hch)
    rcases ih (pos + 1) _ hnd' hdisj' with ⟨m', hm'⟩
    refine ⟨m', ?_⟩
    simp only [insertChars, h0]
    simpa using hm'

theorem insertChars_error_iff (cs : List Char) (pos : Nat)
    (m : Char → Option Nat) :
    insertChars cs pos m = .error "Key must contain unique characters." ↔
      ¬ (cs.Nodup ∧ ∀ ch ∈ cs, m ch = none) := by
  constructor
  · intro h hgood
    rcases insertChars_ok_of_nodup cs pos m hgood.1 hgood.2 with ⟨m', hm'⟩
    rw [h] at hm'
    cases hm'
  · intro hbad
    cases hres : insertChars cs pos m with
    | ok m' =>
      exact absurd ⟨insertChars_ok_nodup cs pos m m' hres,
        insertChars_ok_mem_none cs pos m m' hres⟩ hbad
    | error e =>
      rw [insertChars_error_msg cs pos m e hres]

/-! ### Properties of construction -/

theorem new_ok_fields (key : String) (c : SquishyID)
    (h : SquishyID.new key = .ok c) :
    c.length = key.toList.length ∧
      c.positions_to_characters = key.toList ∧
      insertChars key.toList 0 (fun _ => none) = .ok c.characters_to_positions := by
  unfold SquishyID.new at h
  split at h
  · cases h
  · cases hm : insertChars key.toList 0 (fun _ => none) with
    | error e => rw [hm] at h; cases h
    | ok m =>
      rw [hm] at h
      injection h with h
      subst h
      exact ⟨rfl, rfl, rfl⟩

theorem new_ok_nodup (key : String) (c : SquishyID)
    (h : SquishyID.new key = .ok c) : key.toList.Nodup :=
  insertChars_ok_nodup key.toList 0 _ _ (new_ok_fields key c h).2.2

theorem new_ok_getElem (key : String) (c : SquishyID)
    (h : SquishyID.new key = .ok c) :
    ∀ j, (hj : j < key.toList.length) →
      c.characters_to_positions (key.toList[j]) = some j := by
  intro j hj
  have := insertChars_ok_getElem key.toList 0 _ _
    (new_ok_fields key c h).2.2 j hj
  simpa using this

theorem new_ok_not_mem (key : String) (c : SquishyID)
    (h : SquishyID.new key = .ok c) :
    ∀ ch, ch ∉ key.toList → c.characters_to_positions ch = none := by
  intro ch hch
  exact insertChars_ok_not_mem key.toList 0 _ _ (new_ok_fields key c h).2.2 ch hch

theorem new_ok_lookup_inv (key : String) (c : SquishyID)
    (h : SquishyID.new key = .ok c) :
    ∀ ch i, c.characters_to_positions ch = some i →
      ∃ hj : i < key.toList.length, key.toList[i] = ch := by
  intro ch i hchi
  by_cases hmem : ch ∈ key.toList
  · rcases List.mem_iff_getElem.mp hmem with ⟨j, hj, hget⟩
    have := new_ok_getElem key c h j hj
    rw [hget] at this
    rw [this] at hchi
    injection hchi with hchi
    subst hchi
    exact ⟨hj, hget⟩
  · rw [new_ok_not_mem key c h ch hmem] at hchi
    cases hchi

theorem new_error_short_iff (key : String) :
    SquishyID.new key = .error "Key must contain at least 2 characters." ↔
      key.toList.length < 2 := by
  constructor
  · intro h
    unfold SquishyID.new at h
    split at h
    · assumption
    · cases hm : insertChars key.toList 0 (fun _ => none) with
      | error e =>
        rw [hm] at h
        injection h with h
        rw [insertChars_error_msg _ _ _ _ hm] at h
        exact absurd h (by decide)
      | ok m => rw [hm] at h; cases h
  · intro h
    unfold SquishyID.new
    rw [dif_pos h]

theorem new_error_dup_iff (key : String) (h2 : 2 ≤ key.toList.length) :
    SquishyID.new key = .error "Key must contain unique characters." ↔
      ¬ key.toList.Nodup := by
  unfold SquishyID.new
  rw [dif_neg (by omega)]
  constructor
  · intro h
    cases hm : insertChars key.toList 0 (fun _ => none) with
    | error e =>
      have he := insertChars_error_msg _ _ _ _ hm
      subst he
      have hbad := (insertChars_error_iff _ _ _).mp hm
      intro hnd
      exact hbad ⟨hnd, fun ch _ => rfl⟩
    | ok m => rw [hm] at h; cases h
  · intro hnd
    have hm : insertChars key.toList 0 (fun _ => none) =
        .error "Key must contain unique characters." :=
      (insertChars_error_iff _ _ _).mpr (fun hg => hnd hg.1)
    rw [hm]

/-! ### Digit arithmetic -/

theorem toList_mk (l : List Char) : (String.mk l).toList = l := rfl

theorem natDigits_unfold (b v : Nat) :
    natDigits b v =
      if b ≤ 1 ∨ v / b = 0 then [v % b]
      else (v % b) :: natDigits b (v / b) := by
  rw [natDigits]
  split <;> rfl

theorem encodeLoop_unfold (s : SquishyID) (v : Nat) :
    s.encodeLoop v =
      if v / s.length = 0 then
        [s.positions_to_characters.getD (v % s.length) 'a']
      else
        s.positions_to_characters.getD (v % s.length) 'a' ::
          s.encodeLoop (v / s.length) := by
  rw [SquishyID.encodeLoop]
  split <;> rfl

theorem natDigits_ne_nil (b v : Nat) : natDigits b v ≠ [] := by
  rw [natDigits_unfold]
  split <;> simp

theorem lsbVal_natDigits (b : Nat) (hb : 2 ≤ b) (v : Nat) :
    lsbVal b (natDigits b v) = v := by
  induction v using Nat.strong_induction_on with
  | _ v ih =>
    rw [natDigits_unfold]
    by_cases h : v / b = 0
    · rw [if_pos (Or.inr h)]
      have hdm := Nat.div_add_mod v b
      rw [h] at hdm
      simp [lsbVal]
      omega
    · rw [if_neg (by push_neg; exact ⟨by omega, h⟩)]
      have hvpos : 0 < v := by
        rcases Nat.eq_zero_or_pos v with h0 | h0
        · subst h0; simp at h
        · exact h0
      have hlt : v / b < v := Nat.div_lt_self hvpos (by omega)
      simp only [lsbVal]
      rw [ih (v / b) hlt]
      have hdm := Nat.div_add_mod v b
      omega

theorem natDigits_lt (b : Nat) (hb : 2 ≤ b) (v : Nat) :
    ∀ d ∈ natDigits b v, d < b := by
  induction v using Nat.strong_induction_on with
  | _ v ih =>
    intro d hd
    rw [natDigits_unfold] at hd
    by_cases h : v / b = 0
    · rw [if_pos (Or.inr h)] at hd
      simp at hd
      subst hd
      exact Nat.mod_lt _ (by omega)
    · rw [if_neg (by push_neg; exact ⟨by omega, h⟩)] at hd
      have hvpos : 0 < v := by
        rcases Nat.eq_zero_or_pos v with h0 | h0
        · subst h0; simp at h
        · exact h0
      rcases List.mem_cons.mp hd with hc | hc
      · subst hc; exact Nat.mod_lt _ (by omega)
      · exact ih (v / b) (Nat.div_lt_self hvpos (by omega)) d hc

theorem natDigits_getLast_ne_zero (b : Nat) (hb : 2 ≤ b) (v : Nat)
    (hv : v ≠ 0) :
    ∀ d, (natDigits b v).getLast? = some d → d ≠ 0 := by
  induction v using Nat.strong_induction_on with
  | _ v ih =>
    intro d hd
    rw [natDigits_unfold] at hd
    by_cases h : v / b = 0
    · rw [if_pos (Or.inr h)] at hd
      simp at hd
      have hdm := Nat.div_add_mod v b
      rw [h] at hdm
      omega
    · rw [if_neg (by push_neg; exact ⟨by omega, h⟩)] at hd
      have hvpos : 0 < v := by
        rcases Nat.eq_zero_or_pos v with h0 | h0
        · subst h0; simp at h
        · exact h0
      cases hnd : natDigits b (v / b) with
      | nil => exact absurd hnd (natDigits_ne_nil b (v / b))
      | cons x xs =>
        rw [hnd, List.getLast?_cons_cons] at hd
        refine ih (v / b) (Nat.div_lt_self hvpos (by omega)) h d ?_
        rw [hnd]
        exact hd

theorem pow_le_of_natDigits (b : Nat) (hb : 2 ≤ b) (v : Nat) (hv : 1 ≤ v) :
    b ^ ((natDigits b v).length - 1) ≤ v := by
  induction v using Nat.strong_induction_on with
  | _ v ih =>
    rw [natDigits_unfold]
    by_cases h : v / b = 0
    · rw [if_pos (Or.inr h)]
      simpa using hv
    · rw [if_neg (by push_neg; exact ⟨by omega, h⟩)]
      have hvpos : 0 < v := by omega
      have hlt : v / b < v := Nat.div_lt_self hvpos (by omega)
      have h1 : 1 ≤ v / b := Nat.pos_of_ne_zero h
      have hrec := ih (v / b) hlt h1
      have hlen : 1 ≤ (natDigits b (v / b)).length :=
        List.length_pos.mpr (natDigits_ne_nil b (v / b))
      simp only [List.length_cons, Nat.add_sub_cancel]
      calc b ^ (natDigits b (v / b)).length
          = b ^ ((natDigits b (v / b)).length - 1) * b := by
            rw [← pow_succ]
            congr 1
            omega
        _ ≤ (v / b) * b := Nat.mul_le_mul_right b hrec
        _ ≤ v := Nat.div_mul_le_self v b

theorem encodeLoop_eq_natDigits (s : SquishyID) (v : Nat) :
    s.encodeLoop v =
      (natDigits s.length v).map
        (fun d => s.positions_to_characters.getD d 'a') := by
  have hb := s.two_le_length
  induction v using Nat.strong_induction_on with
  | _ v ih =>
    rw [encodeLoop_unfold, natDigits_unfold]
    by_cases h : v / s.length = 0
    · rw [if_pos h, if_pos (Or.inr h)]
      simp
    · rw [if_neg h, if_neg (by push_neg; exact ⟨by omega, h⟩)]
      have hvpos : 0 < v := by
        rcases Nat.eq_zero_or_pos v with h0 | h0
        · subst h0; simp at h
        · exact h0
      simp only [List.map_cons]
      congr 1
      exact ih (v / s.length) (Nat.div_lt_self hvpos (by omega))

/-! ### The checked accumulation chain -/

theorem checked_chain_some (b p f acc : Nat)
    (hp : b ^ p ≤ U64_MAX) (hm : b ^ p * f ≤ U64_MAX)
    (ha : b ^ p * f + acc ≤ U64_MAX) :
    ((checked_pow b p).bind (fun a => checked_mul a f)).bind
      (fun a => checked_add a acc) = some (b ^ p * f + acc) := by
  simp [checked_pow, checked_mul, checked_add, hp, hm, ha]

theorem checked_chain_eq_some (b p f acc r : Nat)
    (h : ((checked_pow b p).bind (fun a => checked_mul a f)).bind
      (fun a => checked_add a acc) = some r) :
    b ^ p ≤ U64_MAX ∧ b ^ p * f ≤ U64_MAX ∧
      b ^ p * f + acc ≤ U64_MAX ∧ r = b ^ p * f + acc := by
  by_cases h1 : b ^ p ≤ U64_MAX
  · by_cases h2 : b ^ p * f ≤ U64_MAX
    · by_cases h3 : b ^ p * f + acc ≤ U64_MAX
      · refine ⟨h1, h2, h3, ?_⟩
        simp [checked_pow, checked_mul, checked_add, h1, h2, h3] at h
        omega
      · simp [checked_pow, checked_mul, checked_add, h1, h2, h3] at h
    · simp [checked_pow, checked_mul, h1, h2] at h
  · simp [checked_pow, h1] at h

theorem checked_chain_none (b p f acc : Nat)
    (h : ¬ (b ^ p ≤ U64_MAX ∧ b ^ p * f ≤ U64_MAX ∧
      b ^ p * f + acc ≤ U64_MAX)) :
    ((checked_pow b p).bind (fun a => checked_mul a f)).bind
      (fun a => checked_add a acc) = none := by
  by_cases h1 : b ^ p ≤ U64_MAX
  · by_cases h2 : b ^ p * f ≤ U64_MAX
    · by_cases h3 : b ^ p * f + acc ≤ U64_MAX
      · exact absurd ⟨h1, h2, h3⟩ h
      · simp [checked_pow, checked_mul, checked_add, h1, h2, h3]
    · simp [checked_pow, checked_mul, h1, h2]
  · simp [checked_pow, h1]

/-! ### The decode loop -/

theorem decodeLoop_ok (s : SquishyID) (cs : List Char) :
    ∀ p acc,
      (∀ ch ∈ cs, (s.characters_to_positions ch).isSome = true) →
      (cs = [] ∨ s.length ^ (p + cs.length - 1) ≤ U64_MAX) →
      acc + s.length ^ p * lsbVal s.length (factorsOf s cs) ≤ U64_MAX →
      s.decodeLoop cs p acc =
        .ok (acc + s.length ^ p * lsbVal s.length (factorsOf s cs)) := by
  induction cs with
  | nil =>
    intro p acc _ _ _
    simp [SquishyID.decodeLoop, factorsOf, lsbVal]
  | cons c0 rest ih =>
    intro p acc hvalid hpow hval
    have hb := s.two_le_length
    obtain ⟨f, hf⟩ := Option.isSome_iff_exists.mp
      (hvalid c0 (List.mem_cons_self _ _))
    have hfac : factorsOf s (c0 :: rest) = f :: factorsOf s rest := by
      simp [factorsOf, hf]
    have hL : lsbVal s.length (f :: factorsOf s rest) =
        f + s.length * lsbVal s.length (factorsOf s rest) := rfl
    rw [hfac] at hval
    have hpow1 : s.length ^ (p + (c0 :: rest).length - 1) ≤ U64_MAX := by
      rcases hpow with h | h
      · cases h
      · exact h
    have hpow0 : s.length ^ p ≤ U64_MAX :=
      le_trans (Nat.pow_le_pow_right (by omega) (by simp)) hpow1
    have hfle : s.length ^ p * f ≤
        s.length ^ p * lsbVal s.length (f :: factorsOf s rest) :=
      Nat.mul_le_mul_left _ (by rw [hL]; omega)
    have hmul : s.length ^ p * f ≤ U64_MAX := by omega
    have hadd : s.length ^ p * f + acc ≤ U64_MAX := by omega
    have hchain := checked_chain_some s.length p f acc hpow0 hmul hadd
    simp only [SquishyID.decodeLoop, hf, hchain]
    have hvalid' : ∀ ch ∈ rest, (s.characters_to_positions ch).isSome = true :=
      fun ch hch => hvalid ch (List.mem_cons_of_mem _ hch)
    have hpow' : rest = [] ∨ s.length ^ (p + 1 + rest.length - 1) ≤ U64_MAX := by
      cases rest with
      | nil => exact Or.inl rfl
      | cons r rs =>
        refine Or.inr ?_
        have : p + 1 + (r :: rs).length - 1 = p + (c0 :: r :: rs).length - 1 := by
          simp
          omega
        rw [this]
        exact hpow1
    have hval' : (s.length ^ p * f + acc) +
        s.length ^ (p + 1) * lsbVal s.length (factorsOf s rest) ≤ U64_MAX := by
      have harith : (s.length ^ p * f + acc) +
          s.length ^ (p + 1) * lsbVal s.length (factorsOf s rest) =
          acc + s.length ^ p * lsbVal s.length (f :: factorsOf s rest) := by
        rw [hL, pow_succ]
        ring
      omega
    rw [ih (p + 1) (s.length ^ p * f + acc) hvalid' hpow' hval']
    rw [hfac]
    congr 1
    rw [hL, pow_succ]
    ring

theorem decodeLoop_inv (s : SquishyID) (cs : List Char) :
    ∀ p acc v, acc ≤ U64_MAX →
      s.decodeLoop cs p acc = .ok v →
      (∀ ch ∈ cs, (s.characters_to_positions ch).isSome = true) ∧
      v = acc + s.length ^ p * lsbVal s.length (factorsOf s cs) ∧
      v ≤ U64_MAX ∧
      (cs = [] ∨ s.length ^ (p + cs.length - 1) ≤ U64_MAX) := by
  induction cs with
  | nil =>
    intro p acc v hacc h
    simp only [SquishyID.decodeLoop] at h
    injection h with h
    subst h
    exact ⟨by simp, by simp [factorsOf, lsbVal], hacc, Or.inl rfl⟩
  | cons c0 rest ih =>
    intro p acc v hacc h
    cases hf : s.characters_to_positions c0 with
    | none => simp [SquishyID.decodeLoop, hf] at h
    | some f =>
      simp only [SquishyID.decodeLoop, hf] at h
      cases hch : ((checked_pow s.length p).bind (fun a => checked_mul a f)).bind
          (fun a => checked_add a acc) with
      | none => simp [hch] at h
      | some bd =>
        simp only [hch] at h
        obtain ⟨h1, h2, h3, hbd⟩ := checked_chain_eq_some _ _ _ _ _ hch
        subst hbd
        obtain ⟨hv', hveq, hvmax, hpow'⟩ := ih (p + 1) _ v (by omega) h
        have hfac : factorsOf s (c0 :: rest) = f :: factorsOf s rest := by
          simp [factorsOf, hf]
        have hL : lsbVal s.length (f :: factorsOf s rest) =
            f + s.length * lsbVal s.length (factorsOf s rest) := rfl
        refine ⟨?_, ?_, hvmax, ?_⟩
        · intro ch hmem
          rcases List.mem_cons.mp hmem with hc | hc
          · subst hc; simp [hf]
          · exact hv' ch hc
        · rw [hveq, hfac, hL, pow_succ]
          ring
        · refine Or.inr ?_
          cases rest with
          | nil => simpa using h1
          | cons r rs =>
            rcases hpow' with h' | h'
            · cases h'
            · have heq : p + (c0 :: r :: rs).length - 1 =
                  p + 1 + (r :: rs).length - 1 := by
                simp
                omega
              rw [heq]
              exact h'

theorem decodeLoop_ne_empty (s : SquishyID) (cs : List Char) :
    ∀ p acc, s.decodeLoop cs p acc ≠
      .error "Encoded value must contain at least 1 character." := by
  induction cs with
  | nil =>
    intro p acc h
    simp [SquishyID.decodeLoop] at h
  | cons c0 rest ih =>
    intro p acc h
    cases hf : s.characters_to_positions c0 with
    | none =>
      simp only [SquishyID.decodeLoop, hf] at h
      injection h with h
      exact absurd h (by decide)
    | some f =>
      simp only [SquishyID.decodeLoop, hf] at h
      cases hch : ((checked_pow s.length p).bind (fun a => checked_mul a f)).bind
          (fun a => checked_add a acc) with
      | none =>
        simp only [hch] at h
        injection h with h
        exact absurd h (by decide)
      | some bd =>
        simp only [hch] at h
        exact ih _ _ h

theorem decodeLoop_unknown (s : SquishyID) (pre : List Char) :
    ∀ p acc (ch0 : Char) (post : List Char),
      (∀ ch ∈ pre, (s.characters_to_positions ch).isSome = true) →
      s.characters_to_positions ch0 = none →
      (pre = [] ∨ s.length ^ (p + pre.length - 1) ≤ U64_MAX) →
      acc + s.length ^ p * lsbVal s.length (factorsOf s pre) ≤ U64_MAX →
      s.decodeLoop (pre ++ ch0 :: post) p acc =
        .error "Encoded value contains character not present in key." := by
  induction pre with
  | nil =>
    intro p acc ch0 post _ h0 _ _
    simp [SquishyID.decodeLoop, h0]
  | cons c0 rest ih =>
    intro p acc ch0 post hvalid h0 hpow hval
    have hb := s.two_le_length
    obtain ⟨f, hf⟩ := Option.isSome_iff_exists.mp
      (hvalid c0 (List.mem_cons_self _ _))
    have hfac : factorsOf s (c0 :: rest) = f :: factorsOf s rest := by
      simp [factorsOf, hf]
    have hL : lsbVal s.length (f :: factorsOf s rest) =
        f + s.length * lsbVal s.length (factorsOf s rest) := rfl
    rw [hfac] at hval
    have hpow1 : s.length ^ (p + (c0 :: rest).length - 1) ≤ U64_MAX := by
      rcases hpow with h | h
      · cases h
      · exact h
    have hpow0 : s.length ^ p ≤ U64_MAX :=
      le_trans (Nat.pow_le_pow_right (by omega) (by simp)) hpow1
    have hfle : s.length ^ p * f ≤
        s.length ^ p * lsbVal s.length (f :: factorsOf s rest) :=
      Nat.mul_le_mul_left _ (by rw [hL]; omega)
    have hmul : s.length ^ p * f ≤ U64_MAX := by omega
    have hadd : s.length ^ p * f + acc ≤ U64_MAX := by omega
    have hchain := checked_chain_some s.length p f acc hpow0 hmul hadd
    simp only [List.cons_append, SquishyID.decodeLoop, hf, hchain]
    have hvalid' : ∀ ch ∈ rest, (s.characters_to_positions ch).isSome = true :=
      fun ch hch => hvalid ch (List.mem_cons_of_mem _ hch)
    have hpow' : rest = [] ∨ s.length ^ (p + 1 + rest.length - 1) ≤ U64_MAX := by
      cases rest with
      | nil => exact Or.inl rfl
      | cons r rs =>
        refine Or.inr ?_
        have heq : p + 1 + (r :: rs).length - 1 =
            p + (c0 :: r :: rs).length - 1 := by
          simp
          omega
        rw [heq]
        exact hpow1
    have hval' : (s.length ^ p * f + acc) +
        s.length ^ (p + 1) * lsbVal s.length (factorsOf s rest) ≤ U64_MAX := by
      have harith : (s.length ^ p * f + acc) +
          s.length ^ (p + 1) * lsbVal s.length (factorsOf s rest) =
          acc + s.length ^ p * lsbVal s.length (f :: factorsOf s rest) := by
        rw [hL, pow_succ]
        ring
      omega
    exact ih (p + 1) _ ch0 post hvalid' h0 hpow' hval'

theorem decodeLoop_over (s : SquishyID) (pre : List Char) :
    ∀ p acc (tail : List Char),
      acc ≤ U64_MAX →
      (∀ ch ∈ pre, (s.characters_to_positions ch).isSome = true) →
      ¬ ((pre = [] ∨ s.length ^ (p + pre.length - 1) ≤ U64_MAX) ∧
         acc + s.length ^ p * lsbVal s.length (factorsOf s pre) ≤ U64_MAX) →
      s.decodeLoop (pre ++ tail) p acc =
        .error "Encoded value too big to decode." := by
  induction pre with
  | nil =>
    intro p acc tail hacc _ hbad
    refine absurd ⟨Or.inl rfl, ?_⟩ hbad
    simpa [factorsOf, lsbVal] using hacc
  | cons c0 rest ih =>
    intro p acc tail hacc hvalid hbad
    have hb := s.two_le_length
    obtain ⟨f, hf⟩ := Option.isSome_iff_exists.mp
      (hvalid c0 (List.mem_cons_self _ _))
    have hfac : factorsOf s (c0 :: rest) = f :: factorsOf s rest := by
      simp [factorsOf, hf]
    have hL : lsbVal s.length (f :: factorsOf s rest) =
        f + s.length * lsbVal s.length (factorsOf s rest) := rfl
    have hvalid' : ∀ ch ∈ rest, (s.characters_to_positions ch).isSome = true :=
      fun ch hch => hvalid ch (List.mem_cons_of_mem _ hch)
    by_cases h1 : s.length ^ p ≤ U64_MAX
    · by_cases h2 : s.length ^ p * f ≤ U64_MAX
      · by_cases h3 : s.length ^ p * f + acc ≤ U64_MAX
        · have hchain := checked_chain_some s.length p f acc h1 h2 h3
          simp only [List.cons_append, SquishyID.decodeLoop, hf, hchain]
          refine ih (p + 1) _ tail (by omega) hvalid' ?_
          rintro ⟨hpow', hval'⟩
          refine hbad ⟨?_, ?_⟩
          · cases rest with
            | nil =>
              refine Or.inr ?_
              simpa using h1
            | cons r rs =>
              rcases hpow' with h' | h'
              · cases h'
              · refine Or.inr ?_
                have heq : p + (c0 :: r :: rs).length - 1 =
                    p + 1 + (r :: rs).length - 1 := by
                  simp
                  omega
                rw [heq]
                exact h'
          · have harith : (s.length ^ p * f + acc) +
                s.length ^ (p + 1) * lsbVal s.length (factorsOf s rest) =
                acc + s.length ^ p * lsbVal s.length (f :: factorsOf s rest) := by
              rw [hL, pow_succ]
              ring
            rw [hfac]
            omega
        · have hchain := checked_chain_none s.length p f acc (by tauto)
          simp [List.cons_append, SquishyID.decodeLoop, hf, hchain]
      · have hchain := checked_chain_none s.length p f acc (by tauto)
        simp [List.cons_append, SquishyID.decodeLoop, hf, hchain]
    · have hchain := checked_chain_none s.length p f acc (by tauto)
      simp [List.cons_append, SquishyID.decodeLoop, hf, hchain]

/-! ### String-level characterizations -/

theorem decode_eq_decodeLoop (s : SquishyID) (t : String) (hne : t.toList ≠ []) :
    s.decode t = s.decodeLoop t.toList.reverse 0 0 := by
  have hfalse : t.toList.isEmpty = false := by
    cases h : t.toList with
    | nil => exact absurd h hne
    | cons a l => rfl
  simp only [SquishyID.decode, hfalse, Bool.false_eq_true, if_false]

theorem lsbVal_append (b : Nat) (xs : List Nat) (d : Nat) :
    lsbVal b (xs ++ [d]) = lsbVal b xs + d * b ^ xs.length := by
  induction xs with
  | nil => simp [lsbVal]
  | cons x xs ih =>
    have hc : (x :: xs) ++ [d] = x :: (xs ++ [d]) := rfl
    rw [hc]
    show x + b * lsbVal b (xs ++ [d]) =
      lsbVal b (x :: xs) + d * b ^ (x :: xs).length
    rw [ih]
    simp only [lsbVal, List.length_cons, pow_succ]
    ring

theorem lsbVal_reverse (b : Nat) (ds : List Nat) :
    lsbVal b ds.reverse = msbVal b ds := by
  induction ds with
  | nil => rfl
  | cons d ds ih =>
    simp only [List.reverse_cons, lsbVal_append, ih, msbVal,
      List.length_reverse]
    ring

theorem factorsOf_reverse (s : SquishyID) (l : List Char) :
    factorsOf s l.reverse = (factorsOf s l).reverse := by
  simp [factorsOf]

theorem decode_ok_char (s : SquishyID) (t : String) (v : Nat)
    (h : s.decode t = .ok v) :
    t.toList ≠ [] ∧
    (∀ ch ∈ t.toList, (s.characters_to_positions ch).isSome = true) ∧
    v = msbVal s.length (factorsOf s t.toList) ∧
    v ≤ U64_MAX ∧
    s.length ^ (t.toList.length - 1) ≤ U64_MAX := by
  have hne : t.toList ≠ [] := by
    intro hc
    unfold SquishyID.decode at h
    rw [hc] at h
    simp at h
  rw [decode_eq_decodeLoop s t hne] at h
  obtain ⟨hval, hveq, hvmax, hpow⟩ :=
    decodeLoop_inv s t.toList.reverse 0 0 v (by simp [U64_MAX]) h
  refine ⟨hne, ?_, ?_, hvmax, ?_⟩
  · intro ch hch
    exact hval ch (List.mem_reverse.mpr hch)
  · rw [hveq, factorsOf_reverse, lsbVal_reverse]
    simp
  · rcases hpow with hc | hc
    · exact absurd (by simpa using hc) hne
    · simpa using hc

theorem decode_ok_of (s : SquishyID) (t : String)
    (hne : t.toList ≠ [])
    (hval : ∀ ch ∈ t.toList, (s.characters_to_positions ch).isSome = true)
    (hpow : s.length ^ (t.toList.length - 1) ≤ U64_MAX)
    (hmax : msbVal s.length (factorsOf s t.toList) ≤ U64_MAX) :
    s.decode t = .ok (msbVal s.length (factorsOf s t.toList)) := by
  rw [decode_eq_decodeLoop s t hne]
  have hv' : ∀ ch ∈ t.toList.reverse,
      (s.characters_to_positions ch).isSome = true :=
    fun ch hch => hval ch (List.mem_reverse.mp hch)
  have hp' : t.toList.reverse = [] ∨
      s.length ^ (0 + t.toList.reverse.length - 1) ≤ U64_MAX := by
    refine Or.inr ?_
    simpa using hpow
  have hm' : 0 + s.length ^ 0 *
      lsbVal s.length (factorsOf s t.toList.reverse) ≤ U64_MAX := by
    rw [factorsOf_reverse, lsbVal_reverse]
    simpa using hmax
  rw [decodeLoop_ok s t.toList.reverse 0 0 hv' hp' hm']
  rw [factorsOf_reverse, lsbVal_reverse]
  simp

theorem encodeLoop_ne_nil (s : SquishyID) (v : Nat) : s.encodeLoop v ≠ [] := by
  rw [encodeLoop_eq_natDigits]
  simp [natDigits_ne_nil]

theorem table_getD_factor (key : String) (c : SquishyID)
    (h : SquishyID.new key = .ok c) (d : Nat) (hd : d < c.length) :
    c.characters_to_positions (c.positions_to_characters.getD d 'a') =
      some d := by
  obtain ⟨hlen, htab, _⟩ := new_ok_fields key c h
  rw [htab]
  have hd' : d < key.toList.length := by omega
  rw [List.getD_eq_getElem _ _ hd']
  exact new_ok_getElem key c h d hd'

theorem factorsOf_map_table (key : String) (c : SquishyID)
    (h : SquishyID.new key = .ok c) (ds : List Nat)
    (hds : ∀ d ∈ ds, d < c.length) :
    factorsOf c (ds.map (fun d => c.positions_to_characters.getD d 'a')) =
      ds := by
  induction ds with
  | nil => rfl
  | cons d ds ih =>
    have h0 := table_getD_factor key c h d (hds d (List.mem_cons_self _ _))
    have hrest := ih (fun x hx => hds x (List.mem_cons_of_mem _ hx))
    simp only [factorsOf, List.map_cons, List.map_map] at hrest ⊢
    rw [h0]
    simp only [Option.getD_some]
    rw [hrest]

theorem encode_toList (s : SquishyID) (v : Nat) :
    (s.encode v).toList = (s.encodeLoop v).reverse := rfl

theorem decode_encode_of_new (key : String) (c : SquishyID)
    (h : SquishyID.new key = .ok c) (v : Nat) (hv : v ≤ U64_MAX) :
    c.decode (c.encode v) = .ok v := by
  have hb := c.two_le_length
  have hne : (c.encode v).toList ≠ [] := by
    rw [encode_toList]
    simpa using encodeLoop_ne_nil c v
  rw [decode_eq_decodeLoop c _ hne]
  rw [encode_toList, List.reverse_reverse, encodeLoop_eq_natDigits]
  have hlt := natDigits_lt c.length hb v
  have hfac := factorsOf_map_table key c h (natDigits c.length v) hlt
  have hlv := lsbVal_natDigits c.length hb v
  have hone : (1 : Nat) ≤ U64_MAX := by norm_num [U64_MAX]
  have hpow : (natDigits c.length v).map
        (fun d => c.positions_to_characters.getD d 'a') = [] ∨
      c.length ^ (0 + ((natDigits c.length v).map
        (fun d => c.positions_to_characters.getD d 'a')).length - 1) ≤
        U64_MAX := by
    refine Or.inr ?_
    simp only [List.length_map, Nat.zero_add]
    rcases Nat.eq_zero_or_pos v with h0 | h0
    · subst h0
      have : natDigits c.length 0 = [0] := by
        rw [natDigits_unfold]
        simp
      rw [this]
      simpa using hone
    · calc c.length ^ ((natDigits c.length v).length - 1) ≤ v :=
            pow_le_of_natDigits c.length hb v h0
        _ ≤ U64_MAX := hv
  have hval : 0 + c.length ^ 0 * lsbVal c.length
      (factorsOf c ((natDigits c.length v).map
        (fun d => c.positions_to_characters.getD d 'a'))) ≤ U64_MAX := by
    rw [hfac, hlv]
    simpa using hv
  have hvalid : ∀ ch ∈ (natDigits c.length v).map
      (fun d => c.positions_to_characters.getD d 'a'),
      (c.characters_to_positions ch).isSome = true := by
    intro ch hch
    rcases List.mem_map.mp hch with ⟨d, hd, hchd⟩
    subst hchd
    rw [table_getD_factor key c h d (hlt d hd)]
    rfl
  rw [decodeLoop_ok c _ 0 0 hvalid hpow hval]
  rw [hfac, hlv]
  simp

/-! ### Canonical representations -/

theorem mk_toList (t : String) : String.mk t.toList = t := rfl

theorem lsbVal_pos (b : Nat) (hb : 1 ≤ b) : ∀ (ds : List Nat) (d : Nat),
    ds.getLast? = some d → d ≠ 0 → 0 < lsbVal b ds := by
  intro ds
  induction ds with
  | nil => intro d h; cases h
  | cons x xs ih =>
    intro d hlast hd
    cases xs with
    | nil =>
      simp only [List.getLast?_singleton, Option.some.injEq] at hlast
      subst hlast
      simp only [lsbVal]
      omega
    | cons y ys =>
      rw [List.getLast?_cons_cons] at hlast
      have hpos := ih d hlast hd
      have hmul : 0 < b * lsbVal b (y :: ys) := Nat.mul_pos (by omega) hpos
      simp only [lsbVal] at hmul ⊢
      omega

theorem natDigits_of_canonical (b : Nat) (hb : 2 ≤ b) : ∀ (ds : List Nat),
    (∀ d ∈ ds, d < b) → ds ≠ [] →
    (ds.length = 1 ∨ ∀ d, ds.getLast? = some d → d ≠ 0) →
    natDigits b (lsbVal b ds) = ds := by
  intro ds
  induction ds with
  | nil => intro _ hne; exact absurd rfl hne
  | cons x xs ih =>
    intro hlt hne hcan
    cases xs with
    | nil =>
      have hx : x < b := hlt x (List.mem_cons_self _ _)
      have hv : lsbVal b [x] = x := by simp [lsbVal]
      rw [hv, natDigits_unfold, if_pos (Or.inr (Nat.div_eq_of_lt hx))]
      rw [Nat.mod_eq_of_lt hx]
    | cons y ys =>
      have hcan' : ∀ d, (x :: y :: ys).getLast? = some d → d ≠ 0 := by
        rcases hcan with h1 | h1
        · simp at h1
        · exact h1
      obtain ⟨dl, hdl⟩ : ∃ d, (y :: ys).getLast? = some d := by
        cases hg : (y :: ys).getLast? with
        | none => simp at hg
        | some d => exact ⟨d, rfl⟩
      have hdl0 : dl ≠ 0 :=
        hcan' dl (by rw [List.getLast?_cons_cons]; exact hdl)
      have hpos : 0 < lsbVal b (y :: ys) :=
        lsbVal_pos b (by omega) (y :: ys) dl hdl hdl0
      have hx : x < b := hlt x (List.mem_cons_self _ _)
      have hv : lsbVal b (x :: y :: ys) =
          x + b * lsbVal b (y :: ys) := rfl
      have hdiv : (x + b * lsbVal b (y :: ys)) / b =
          lsbVal b (y :: ys) := by
        rw [Nat.add_mul_div_left x _ (by omega : 0 < b)]
        rw [Nat.div_eq_of_lt hx]
        omega
      have hmod : (x + b * lsbVal b (y :: ys)) % b = x := by
        rw [Nat.add_mul_mod_self_left]
        exact Nat.mod_eq_of_lt hx
      rw [hv, natDigits_unfold]
      rw [if_neg (by push_neg; refine ⟨by omega, ?_⟩; rw [hdiv]; omega)]
      rw [hdiv, hmod]
      congr 1
      refine ih (fun d hd => hlt d (List.mem_cons_of_mem _ hd)) (by simp) ?_
      exact Or.inr (fun d hd =>
        hcan' d (by rw [List.getLast?_cons_cons]; exact hd))

theorem msbVal_append_zeros (b : Nat) : ∀ (zs ds : List Nat),
    (∀ d ∈ zs, d = 0) → msbVal b (zs ++ ds) = msbVal b ds := by
  intro zs ds
  induction zs with
  | nil => intro _; rfl
  | cons z zs ih =>
    intro hz
    have hz0 : z = 0 := hz z (List.mem_cons_self _ _)
    subst hz0
    have hc : (0 :: zs) ++ ds = 0 :: (zs ++ ds) := rfl
    rw [hc]
    show 0 * b ^ (zs ++ ds).length + msbVal b (zs ++ ds) = msbVal b ds
    rw [ih (fun d hd => hz d (List.mem_cons_of_mem _ hd))]
    omega

theorem dropWhile_head_false (p : Char → Bool) : ∀ (l : List Char)
    (x : Char) (xs : List Char), l.dropWhile p = x :: xs → p x = false := by
  intro l
  induction l with
  | nil => intro x xs h; cases h
  | cons a l ih =>
    intro x xs h
    cases hpa : p a with
    | true =>
      rw [List.dropWhile_cons_of_pos hpa] at h
      exact ih x xs h
    | false =>
      rw [List.dropWhile_cons_of_neg (by simp [hpa])] at h
      injection h with h1 _
      subst h1
      exact hpa

theorem zeroChar_factor (key : String) (c : SquishyID)
    (h : SquishyID.new key = .ok c) :
    c.characters_to_positions (zeroChar c) = some 0 :=
  table_getD_factor key c h 0 (by have := c.two_le_length; omega)

theorem factor_zero_iff (key : String) (c : SquishyID)
    (h : SquishyID.new key = .ok c) (ch : Char)
    (hv : (c.characters_to_positions ch).isSome = true) :
    (c.characters_to_positions ch).getD 0 = 0 ↔ ch = zeroChar c := by
  obtain ⟨f, hf⟩ := Option.isSome_iff_exists.mp hv
  obtain ⟨hlen, htab, _⟩ := new_ok_fields key c h
  constructor
  · intro h0
    rw [hf] at h0
    simp only [Option.getD_some] at h0
    subst h0
    obtain ⟨hj, hget⟩ := new_ok_lookup_inv key c h ch 0 hf
    rw [← hget]
    unfold zeroChar
    rw [htab, List.getD_eq_getElem _ _ hj]
  · intro h0
    subst h0
    rw [zeroChar_factor key c h]
    rfl

theorem map_table_factorsOf (key : String) (c : SquishyID)
    (h : SquishyID.new key = .ok c) : ∀ (l : List Char),
    (∀ ch ∈ l, (c.characters_to_positions ch).isSome = true) →
    (factorsOf c l).map (fun d => c.positions_to_characters.getD d 'a') =
      l := by
  intro l
  induction l with
  | nil => intro _; rfl
  | cons ch l ih =>
    intro hval
    obtain ⟨f, hf⟩ := Option.isSome_iff_exists.mp
      (hval ch (List.mem_cons_self _ _))
    obtain ⟨hlen, htab, _⟩ := new_ok_fields key c h
    obtain ⟨hj, hget⟩ := new_ok_lookup_inv key c h ch f hf
    simp only [factorsOf, List.map_cons, List.map_map] at ih ⊢
    rw [hf]
    simp only [Option.getD_some]
    rw [ih (fun x hx => hval x (List.mem_cons_of_mem _ hx))]
    rw [htab, List.getD_eq_getElem _ _ hj, hget]

theorem factors_lt (key : String) (c : SquishyID)
    (h : SquishyID.new key = .ok c) (l : List Char)
    (hval : ∀ ch ∈ l, (c.characters_to_positions ch).isSome = true) :
    ∀ d ∈ factorsOf c l, d < c.length := by
  intro d hd
  rcases List.mem_map.mp hd with ⟨ch, hch, hchd⟩
  obtain ⟨f, hf⟩ := Option.isSome_iff_exists.mp (hval ch hch)
  obtain ⟨hj, _⟩ := new_ok_lookup_inv key c h ch f hf
  obtain ⟨hlen, _, _⟩ := new_ok_fields key c h
  rw [← hchd, hf]
  simp only [Option.getD_some]
  omega


theorem stripZeros_toList (c : SquishyID) (t : String) :
    (stripZeros c t).toList =
      if (t.toList.dropWhile (fun ch => ch = zeroChar c)).isEmpty then
        [zeroChar c]
      else t.toList.dropWhile (fun ch => ch = zeroChar c) := rfl

theorem encode_msbVal_of_canonical (key : String) (c : SquishyID)
    (h : SquishyID.new key = .ok c) (t : String)
    (hne : t.toList ≠ [])
    (hval : ∀ ch ∈ t.toList, (c.characters_to_positions ch).isSome = true)
    (hcan : isCanonical c t) :
    c.encode (msbVal c.length (factorsOf c t.toList)) = t := by
  have hb := c.two_le_length
  set ds := (factorsOf c t.toList).reverse with hds
  have hlsb : lsbVal c.length ds = msbVal c.length (factorsOf c t.toList) := by
    rw [hds, lsbVal_reverse]
  have hlt : ∀ d ∈ ds, d < c.length := by
    intro d hd
    exact factors_lt key c h t.toList hval d (List.mem_reverse.mp hd)
  have hdne : ds ≠ [] := by
    intro hc
    have hlen : ds.length = 0 := by rw [hc]; rfl
    rw [hds] at hlen
    simp only [List.length_reverse, factorsOf, List.length_map] at hlen
    exact hne (List.eq_nil_of_length_eq_zero hlen)
  have hcan' : ds.length = 1 ∨ ∀ d, ds.getLast? = some d → d ≠ 0 := by
    rcases hcan with h1 | h1
    · left
      have hlen0 : t.toList.length ≠ 0 :=
        fun hc => hne (List.eq_nil_of_length_eq_zero hc)
      rw [hds]
      simp only [List.length_reverse, factorsOf, List.length_map]
      omega
    · right
      intro d hd
      rw [hds, List.getLast?_reverse] at hd
      cases hl : t.toList with
      | nil => exact absurd hl hne
      | cons ch rest =>
        rw [hl] at hd
        simp only [factorsOf, List.map_cons, List.head?_cons,
          Option.some.injEq] at hd
        intro hd0
        have hvch : (c.characters_to_positions ch).isSome = true :=
          hval ch (by rw [hl]; exact List.mem_cons_self _ _)
        have hzc := (factor_zero_iff key c h ch hvch).mp (by rw [hd, hd0])
        apply h1
        rw [hl]
        simpa using hzc
  have hnat := natDigits_of_canonical c.length hb ds hlt hdne hcan'
  unfold SquishyID.encode
  rw [encodeLoop_eq_natDigits, ← hlsb, hnat, hds]
  rw [List.map_reverse, List.reverse_reverse]
  rw [map_table_factorsOf key c h t.toList hval]
  exact mk_toList t

theorem decode_stripZeros (key : String) (c : SquishyID)
    (h : SquishyID.new key = .ok c) (t : String) (v : Nat)
    (hdec : c.decode t = .ok v) :
    c.decode (stripZeros c t) = .ok v := by
  obtain ⟨hne, hval, hveq, hvmax, hpow⟩ := decode_ok_char c t v hdec
  have hb := c.two_le_length
  have hone : (1 : Nat) ≤ U64_MAX := by norm_num [U64_MAX]
  have hsplit : t.toList.takeWhile (fun ch => ch = zeroChar c) ++
      t.toList.dropWhile (fun ch => ch = zeroChar c) = t.toList :=
    List.takeWhile_append_dropWhile _ _
  have htwzero : ∀ d ∈ factorsOf c
      (t.toList.takeWhile (fun ch => ch = zeroChar c)), d = 0 := by
    intro d hd
    rcases List.mem_map.mp hd with ⟨ch, hch, hchd⟩
    have hchz : ch = zeroChar c := by
      have := List.mem_takeWhile_imp hch
      simpa using this
    rw [← hchd, hchz, zeroChar_factor key c h]
    rfl
  have hvfac : v = msbVal c.length
      (factorsOf c (t.toList.dropWhile (fun ch => ch = zeroChar c))) := by
    rw [hveq]
    conv_lhs => rw [← hsplit]
    show msbVal c.length
      (factorsOf c (t.toList.takeWhile (fun ch => ch = zeroChar c) ++
        t.toList.dropWhile (fun ch => ch = zeroChar c))) = _
    unfold factorsOf
    rw [List.map_append]
    exact msbVal_append_zeros c.length _ _ htwzero
  cases hr : t.toList.dropWhile (fun ch => ch = zeroChar c) with
  | nil =>
    have hstrip : (stripZeros c t).toList = [zeroChar c] := by
      rw [stripZeros_toList, hr]
      rfl
    have hv0 : v = 0 := by
      rw [hvfac, hr]
      rfl
    have hres := decode_ok_of c (stripZeros c t)
      (by rw [hstrip]; simp)
      (by
        intro ch hch
        rw [hstrip] at hch
        simp at hch
        rw [hch, zeroChar_factor key c h]
        rfl)
      (by rw [hstrip]; simpa using hone)
      (by
        rw [hstrip]
        simp [factorsOf, msbVal, zeroChar_factor key c h, U64_MAX])
    rw [hres, hv0, hstrip]
    congr 1
    simp [factorsOf, msbVal, zeroChar_factor key c h]
  | cons x xs =>
    have hstrip : (stripZeros c t).toList = x :: xs := by
      rw [stripZeros_toList, hr]
      rfl
    have hsub : (x :: xs).Sublist t.toList := by
      rw [← hr]
      exact List.dropWhile_sublist _
    have hres := decode_ok_of c (stripZeros c t)
      (by rw [hstrip]; simp)
      (by
        intro ch hch
        rw [hstrip] at hch
        exact hval ch (hsub.subset hch))
      (by
        rw [hstrip]
        refine le_trans (Nat.pow_le_pow_right (by omega) ?_) hpow
        have := hsub.length_le
        omega)
      (by
        rw [hstrip, ← hr, ← hvfac]
        exact hvmax)
    rw [hres, hstrip, ← hr, ← hvfac]

theorem stripZeros_canonical (c : SquishyID) (t : String) :
    isCanonical c (stripZeros c t) := by
  unfold isCanonical
  cases hr : t.toList.dropWhile (fun ch => ch = zeroChar c) with
  | nil =>
    left
    rw [stripZeros_toList, hr]
    simp
  | cons x xs =>
    right
    have hx := dropWhile_head_false _ t.toList x xs hr
    rw [stripZeros_toList, hr]
    show (x :: xs).headD 'a' ≠ zeroChar c
    simpa using hx

theorem stripZeros_eq_self_iff (c : SquishyID) (t : String)
    (hne : t.toList ≠ []) :
    stripZeros c t = t ↔ isCanonical c t := by
  constructor
  · intro hst
    by_contra hcan
    unfold isCanonical at hcan
    push_neg at hcan
    obtain ⟨hlen, hhead⟩ := hcan
    cases hl : t.toList with
    | nil => exact hne hl
    | cons x rest =>
      have hx : x = zeroChar c := by
        rw [hl] at hhead
        simpa using hhead
      have hdw : t.toList.dropWhile (fun ch => ch = zeroChar c) =
          rest.dropWhile (fun ch => ch = zeroChar c) := by
        rw [hl, List.dropWhile_cons_of_pos (by simp [hx])]
      have hrlen : (rest.dropWhile (fun ch => ch = zeroChar c)).length ≤
          rest.length :=
        (List.dropWhile_sublist _).length_le
      have hlen2 : t.toList.length = rest.length + 1 := by
        rw [hl]
        rfl
      have hstl : (stripZeros c t).toList.length < t.toList.length := by
        rw [stripZeros_toList, hdw]
        split
        · simp only [List.length_singleton]
          omega
        · omega
      rw [hst] at hstl
      omega
  · intro hcan
    rcases hcan with h1 | h1
    · cases hl : t.toList with
      | nil => exact absurd hl hne
      | cons x rest =>
        have hrest : rest = [] := by
          rw [hl] at h1
          simp only [List.length_cons] at h1
          exact List.eq_nil_of_length_eq_zero (by omega)
        subst hrest
        by_cases hx : x = zeroChar c
        · have hdw : t.toList.dropWhile (fun ch => ch = zeroChar c) = [] := by
            rw [hl, List.dropWhile_cons_of_pos (by simp [hx])]
            rfl
          show String.mk (if (t.toList.dropWhile
            (fun ch => ch = zeroChar c)).isEmpty then [zeroChar c]
            else t.toList.dropWhile (fun ch => ch = zeroChar c)) = t
          rw [hdw]
          show String.mk [zeroChar c] = t
          rw [← hx, ← hl]
          exact mk_toList t
        · have hdw : t.toList.dropWhile (fun ch => ch = zeroChar c) = [x] := by
            rw [hl, List.dropWhile_cons_of_neg (by simp [hx])]
          show String.mk (if (t.toList.dropWhile
            (fun ch => ch = zeroChar c)).isEmpty then [zeroChar c]
            else t.toList.dropWhile (fun ch => ch = zeroChar c)) = t
          rw [hdw]
          show String.mk [x] = t
          rw [← hl]
          exact mk_toList t
    · cases hl : t.toList with
      | nil => exact absurd hl hne
      | cons x rest =>
        have hx : x ≠ zeroChar c := by
          rw [hl] at h1
          simpa using h1
        have hdw : t.toList.dropWhile (fun ch => ch = zeroChar c) =
            x :: rest := by
          rw [hl, List.dropWhile_cons_of_neg (by simp [hx])]
        show String.mk (if (t.toList.dropWhile
          (fun ch => ch = zeroChar c)).isEmpty then [zeroChar c]
          else t.toList.dropWhile (fun ch => ch = zeroChar c)) = t
        rw [hdw]
        show String.mk (x :: rest) = t
        rw [← hl]
        exact mk_toList t

theorem encode_decode_strip (key : String) (c : SquishyID)
    (h : SquishyID.new key = .ok c) (t : String) (v : Nat)
    (hdec : c.decode t = .ok v) :
    c.encode v = stripZeros c t ∧ (c.encode v = t ↔ isCanonical c t) := by
  obtain ⟨hne, _, _, _, _⟩ := decode_ok_char c t v hdec
  have hstrip_dec := decode_stripZeros key c h t v hdec
  obtain ⟨hne', hval', hveq', _, _⟩ := decode_ok_char c _ v hstrip_dec
  have hcan' := stripZeros_canonical c t
  have henc : c.encode v = stripZeros c t := by
    rw [hveq']
    exact encode_msbVal_of_canonical key c h _ hne' hval' hcan'
  refine ⟨henc, ?_, ?_⟩
  · intro he
    have hst : stripZeros c t = t := by rw [← henc, he]
    exact (stripZeros_eq_self_iff c t hne).mp hst
  · intro hcan
    rw [henc]
    exact (stripZeros_eq_self_iff c t hne).mpr hcan

/-! ### Remaining support lemmas -/

theorem decode_over_iff (c : SquishyID) (t : String)
    (hne : t.toList ≠ [])
    (hval : ∀ ch ∈ t.toList, (c.characters_to_positions ch).isSome = true) :
    c.decode t = .error "Encoded value too big to decode." ↔
      (U64_MAX < c.length ^ (t.toList.length - 1) ∨ U64_MAX < strVal c t) := by
  constructor
  · intro hdec
    by_contra hcon
    push_neg at hcon
    obtain ⟨hp, hv⟩ := hcon
    have hok := decode_ok_of c t hne hval hp hv
    rw [hok] at hdec
    cases hdec
  · intro hcon
    rw [decode_eq_decodeLoop c t hne]
    have hover := decodeLoop_over c t.toList.reverse 0 0 []
      (by simp [U64_MAX])
      (fun ch hch => hval ch (List.mem_reverse.mp hch)) ?_
    · simpa using hover
    · rintro ⟨hpow', hval'⟩
      rcases hpow' with hnil | hp
      · exact hne (by simpa using hnil)
      · have hp' : c.length ^ (t.toList.length - 1) ≤ U64_MAX := by
          simpa using hp
        have hv' : strVal c t ≤ U64_MAX := by
          rw [factorsOf_reverse, lsbVal_reverse] at hval'
          unfold strVal
          simpa using hval'
        rcases hcon with h1 | h1 <;> omega

theorem decode_empty_iff (s : SquishyID) (t : String) :
    s.decode t =
      .error "Encoded value must contain at least 1 character." ↔
      t.toList = [] := by
  constructor
  · intro h
    by_contra hc
    rw [decode_eq_decodeLoop s t hc] at h
    exact decodeLoop_ne_empty s _ 0 0 h
  · intro h
    unfold SquishyID.decode
    rw [h]
    rfl

theorem decode_unknown_imp (s : SquishyID) (t : String)
    (h : s.decode t =
      .error "Encoded value contains character not present in key.") :
    ∃ ch ∈ t.toList, s.characters_to_positions ch = none := by
  by_contra hc
  push_neg at hc
  have hval : ∀ ch ∈ t.toList, (s.characters_to_positions ch).isSome = true := by
    intro ch hch
    cases hm : s.characters_to_positions ch with
    | none => exact absurd hm (hc ch hch)
    | some f => rfl
  have hne : t.toList ≠ [] := by
    intro h0
    rw [(decode_empty_iff s t).mpr h0] at h
    injection h with h
    exact absurd h (by decide)
  by_cases hcond : s.length ^ (t.toList.length - 1) ≤ U64_MAX ∧
      msbVal s.length (factorsOf s t.toList) ≤ U64_MAX
  · have hok := decode_ok_of s t hne hval hcond.1 hcond.2
    rw [hok] at h
    cases h
  · have hover : s.decode t = .error "Encoded value too big to decode." := by
      rw [decode_over_iff s t hne hval]
      unfold strVal
      omega
    rw [hover] at h
    injection h with h
    exact absurd h (by decide)

theorem decode_invalid_cases (s : SquishyID) (t : String)
    (hex : ∃ ch ∈ t.toList, s.characters_to_positions ch = none) :
    s.decode t =
      .error "Encoded value contains character not present in key." ∨
    s.decode t = .error "Encoded value too big to decode." := by
  obtain ⟨ch, hch, hchn⟩ := hex
  have hne : t.toList ≠ [] := by
    intro h0
    rw [h0] at hch
    cases hch
  rw [decode_eq_decodeLoop s t hne]
  have hsplit : t.toList.reverse.takeWhile
        (fun x => (s.characters_to_positions x).isSome) ++
      t.toList.reverse.dropWhile
        (fun x => (s.characters_to_positions x).isSome) =
      t.toList.reverse :=
    List.takeWhile_append_dropWhile _ _
  have hdrop_ne : t.toList.reverse.dropWhile
      (fun x => (s.characters_to_positions x).isSome) ≠ [] := by
    intro hdn
    have htake : t.toList.reverse.takeWhile
        (fun x => (s.characters_to_positions x).isSome) =
        t.toList.reverse := by
      have hs := hsplit
      rw [hdn, List.append_nil] at hs
      exact hs
    have hmem : ch ∈ t.toList.reverse.takeWhile
        (fun x => (s.characters_to_positions x).isSome) := by
      rw [htake]
      exact List.mem_reverse.mpr hch
    have := List.mem_takeWhile_imp hmem
    rw [hchn] at this
    cases this
  obtain ⟨ch0, post, hdp⟩ : ∃ ch0 post, t.toList.reverse.dropWhile
      (fun x => (s.characters_to_positions x).isSome) = ch0 :: post := by
    cases hd : t.toList.reverse.dropWhile
        (fun x => (s.characters_to_positions x).isSome) with
    | nil => exact absurd hd hdrop_ne
    | cons a l => exact ⟨a, l, rfl⟩
  have hch0 : s.characters_to_positions ch0 = none := by
    have hfalse := dropWhile_head_false _ t.toList.reverse ch0 post hdp
    cases hm : s.characters_to_positions ch0 with
    | none => rfl
    | some f =>
      rw [hm] at hfalse
      cases hfalse
  have hpre : ∀ x ∈ t.toList.reverse.takeWhile
      (fun x => (s.characters_to_positions x).isSome),
      (s.characters_to_positions x).isSome = true := by
    intro x hx
    have h2 := List.mem_takeWhile_imp hx
    exact h2
  have hlist : t.toList.reverse = t.toList.reverse.takeWhile
      (fun x => (s.characters_to_positions x).isSome) ++ ch0 :: post := by
    rw [← hdp, hsplit]
  rw [hlist]
  by_cases hcond : (t.toList.reverse.takeWhile
        (fun x => (s.characters_to_positions x).isSome) = [] ∨
      s.length ^ (0 + (t.toList.reverse.takeWhile
        (fun x => (s.characters_to_positions x).isSome)).length - 1) ≤
        U64_MAX) ∧
      0 + s.length ^ 0 * lsbVal s.length (factorsOf s
        (t.toList.reverse.takeWhile
          (fun x => (s.characters_to_positions x).isSome))) ≤ U64_MAX
  · left
    exact decodeLoop_unknown s _ 0 0 ch0 post hpre hch0 hcond.1 hcond.2
  · right
    exact decodeLoop_over s _ 0 0 (ch0 :: post) (by simp [U64_MAX]) hpre hcond

theorem encode_zero (s : SquishyID) :
    s.encode 0 = String.mk [s.positions_to_characters.getD 0 'a'] := by
  have hb := s.two_le_length
  unfold SquishyID.encode
  rw [encodeLoop_eq_natDigits]
  have h0 : natDigits s.length 0 = [0] := by
    rw [natDigits_unfold]
    simp
  rw [h0]
  rfl

theorem encode_toList_ne_nil (s : SquishyID) (v : Nat) :
    (s.encode v).toList ≠ [] := by
  rw [encode_toList]
  simpa using encodeLoop_ne_nil s v

theorem encode_chars_mem (s : SquishyID) (v : Nat) :
    ∀ ch ∈ (s.encode v).toList, ch ∈ s.positions_to_characters := by
  intro ch hch
  rw [encode_toList, List.mem_reverse, encodeLoop_eq_natDigits] at hch
  rcases List.mem_map.mp hch with ⟨d, hd, hchd⟩
  have hdlt : d < s.length := natDigits_lt s.length s.two_le_length v d hd
  have hdlt' : d < s.positions_to_characters.length := by
    rw [s.table_length]
    exact hdlt
  rw [← hchd, List.getD_eq_getElem _ _ hdlt']
  exact List.getElem_mem _

theorem encodeLoop_length_le (s : SquishyID) (v : Nat) :
    (s.encodeLoop v).length ≤ v + 1 := by
  have hb := s.two_le_length
  induction v using Nat.strong_induction_on with
  | _ v ih =>
    rw [encodeLoop_unfold]
    by_cases h : v / s.length = 0
    · rw [if_pos h]
      simp
    · rw [if_neg h]
      have hvpos : 0 < v := by
        rcases Nat.eq_zero_or_pos v with h0 | h0
        · subst h0
          simp at h
        · exact h0
      have hlt : v / s.length < v := Nat.div_lt_self hvpos (by omega)
      have := ih _ hlt
      simp only [List.length_cons]
      omega

/-! ### The claims -/

/-- Claim C1: for every codec successfully constructed by `SquishyID.new`
(key of at least 2 unique characters) and every value `v` in the u64 range,
`decode (encode v)` succeeds and returns exactly `v`. -/
theorem claim_c1_roundtrip (key : String) (c : SquishyID)
    (h : SquishyID.new key = .ok c) (v : Nat) (hv : v ≤ U64_MAX) :
    c.decode (c.encode v) = .ok v :=
  decode_encode_of_new key c h v hv

theorem claim_c1_roundtrip_witness :
    cAB.decode (cAB.encode 48888851145) = .ok 48888851145 :=
  claim_c1_roundtrip "ab" cAB rfl 48888851145 (by norm_num [U64_MAX])

/-- Claim C2: for a constructed codec and a non-empty string of key
characters on which decode succeeds, re-encoding the decoded value yields
the string itself exactly when it carries no superfluous leading
zero-digit, and in general yields the string with its leading zero-digits
stripped.  The decode-success hypothesis reads the composition
`encode (decode s)` where it is defined; claim C9 exhibits the strings of
key characters on which decode fails. -/
theorem claim_c2_canonical (key : String) (c : SquishyID)
    (h : SquishyID.new key = .ok c) (t : String)
    (hne : t.toList ≠ [])
    (hchars : ∀ ch ∈ t.toList, ch ∈ c.positions_to_characters)
    (v : Nat) (hdec : c.decode t = .ok v) :
    (c.encode v = t ↔ isCanonical c t) ∧ c.encode v = stripZeros c t := by
  obtain ⟨h1, h2⟩ := encode_decode_strip key c h t v hdec
  exact ⟨h2, h1⟩

theorem claim_c2_canonical_witness :
    (cAB.encode 2 = "ba" ↔ isCanonical cAB "ba") ∧
      cAB.encode 2 = stripZeros cAB "ba" :=
  claim_c2_canonical "ab" cAB rfl "ba" (by decide) (by decide) 2 rfl

/-- Claim C3: decode checks the power, the multiplication and the addition
per digit with u64 checked arithmetic (see `SquishyID.decodeLoop`), so for
a non-empty input of known characters it fails with the overflow error
exactly when some intermediate `base ^ position` alone exceeds the u64
range (equivalently the largest one, at the most significant digit) or the
accumulated mathematical value does — not by computing the full result and
range-testing it, which would accept every string whose value fits. -/
theorem claim_c3_checked_overflow (key : String) (c : SquishyID)
    (h : SquishyID.new key = .ok c) (t : String)
    (hne : t.toList ≠ [])
    (hval : ∀ ch ∈ t.toList, (c.characters_to_positions ch).isSome = true) :
    c.decode t = .error "Encoded value too big to decode." ↔
      (U64_MAX < c.length ^ (t.toList.length - 1) ∨ U64_MAX < strVal c t) :=
  decode_over_iff c t hne hval

theorem claim_c3_checked_overflow_witness :
    cAB.decode "ba" = .error "Encoded value too big to decode." ↔
      (U64_MAX < cAB.length ^ ("ba".toList.length - 1) ∨
        U64_MAX < strVal cAB "ba") :=
  claim_c3_checked_overflow "ab" cAB rfl "ba" (by decide) (by decide)

/-- Claim C4: for keys of at least 2 characters, construction fails with
the duplicate-character error iff some character appears more than once;
and the failure is already triggered by the prefix of the key ending at
the first duplicate encountered scanning left-to-right. -/
theorem claim_c4_duplicate (key : String) (h2 : 2 ≤ key.toList.length) :
    (SquishyID.new key = .error "Key must contain unique characters." ↔
      ¬ key.toList.Nodup) ∧
    (∀ j, (key.toList.take j).Nodup → ¬ (key.toList.take (j + 1)).Nodup →
      SquishyID.new (String.mk (key.toList.take (j + 1))) =
        .error "Key must contain unique characters.") := by
  refine ⟨new_error_dup_iff key h2, ?_⟩
  intro j hnd hnd1
  have hlen : 2 ≤ (key.toList.take (j + 1)).length := by
    by_contra hc
    push_neg at hc
    cases hl : key.toList.take (j + 1) with
    | nil =>
      rw [hl] at hnd1
      exact hnd1 List.nodup_nil
    | cons a l =>
      cases l with
      | nil =>
        rw [hl] at hnd1
        exact hnd1 (List.nodup_singleton a)
      | cons b l2 =>
        rw [hl] at hc
        simp only [List.length_cons] at hc
        omega
  have hlen' : 2 ≤ (String.mk (key.toList.take (j + 1))).toList.length := by
    rw [toList_mk]
    exact hlen
  rw [new_error_dup_iff _ hlen', toList_mk]
  exact hnd1

theorem claim_c4_duplicate_witness :
    SquishyID.new "aba" = .error "Key must contain unique characters." :=
  ((claim_c4_duplicate "aba" (by decide)).1).mpr (by decide)

/-- Claim C5: construction fails with the too-short error iff the key has
fewer than 2 characters, and on success the codec's base (`length`) equals
the number of characters of the key. -/
theorem claim_c5_too_short (key : String) :
    (SquishyID.new key = .error "Key must contain at least 2 characters." ↔
      key.toList.length < 2) ∧
    ∀ c, SquishyID.new key = .ok c → c.length = key.toList.length := by
  refine ⟨new_error_short_iff key, ?_⟩
  intro c h
  exact (new_ok_fields key c h).1

theorem claim_c5_too_short_witness :
    SquishyID.new "a" = .error "Key must contain at least 2 characters." ∧
      cAB.length = 2 := by
  constructor
  · exact (claim_c5_too_short "a").1.mpr (by decide)
  · have h2 := (claim_c5_too_short "ab").2 cAB rfl
    rw [h2]
    rfl

/-- Claim C6 as frozen is false on the code: decode reports the overflow
error, not the unknown-character error, when an unknown character sits
behind at least 65 known zero digits, because the loop walks from the
least significant end and the checked power overflows before the unknown
character is reached.  Here `'x'` is absent from the key "ab", the input
is non-empty, yet decode returns the overflow error. -/
theorem claim_c6_counterexample :
    SquishyID.new "ab" = .ok cAB ∧
    cAB.characters_to_positions 'x' = none ∧
    (String.mk ('x' :: List.replicate 65 'a')).toList ≠ [] ∧
    cAB.decode (String.mk ('x' :: List.replicate 65 'a')) =
      .error "Encoded value too big to decode." ∧
    cAB.decode (String.mk ('x' :: List.replicate 65 'a')) ≠
      .error "Encoded value contains character not present in key." := by
  have h4 : cAB.decode (String.mk ('x' :: List.replicate 65 'a')) =
      .error "Encoded value too big to decode." := rfl
  refine ⟨rfl, rfl, by simp, h4, ?_⟩
  rw [h4]
  intro hc
  injection hc with hc
  exact absurd hc (by decide)

/-- Claim C6 (amended): for a constructed codec, decode fails with the
empty-input error iff the input has no characters; it fails with the
unknown-character error only if some input character is absent from the
map; and an absent character always forces a failure, with either the
unknown-character error or the overflow error (the latter when the checked
arithmetic on the known digits closer to the least significant end
overflows first).  Decode is a pure function of the codec and the input,
so the reported error is deterministic. -/
theorem claim_c6_amended (key : String) (c : SquishyID)
    (h : SquishyID.new key = .ok c) (t : String) :
    (c.decode t =
        .error "Encoded value must contain at least 1 character." ↔
      t.toList = []) ∧
    (c.decode t =
        .error "Encoded value contains character not present in key." →
      ∃ ch ∈ t.toList, c.characters_to_positions ch = none) ∧
    ((∃ ch ∈ t.toList, c.characters_to_positions ch = none) →
      c.decode t =
        .error "Encoded value contains character not present in key." ∨
      c.decode t = .error "Encoded value too big to decode.") :=
  ⟨decode_empty_iff c t, decode_unknown_imp c t, decode_invalid_cases c t⟩

theorem claim_c6_amended_witness :
    cAB.decode "x" =
      .error "Encoded value contains character not present in key." ∨
    cAB.decode "x" = .error "Encoded value too big to decode." :=
  (claim_c6_amended "ab" cAB rfl "x").2.2 ⟨'x', by decide, rfl⟩

/-- Claim C7: encode is total (a Lean function, never an error value) and
for every constructed codec and value returns a non-empty string whose
characters all come from the key table; in particular `encode 0` is the
single character at index 0 of the table. -/
theorem claim_c7_encode_total (key : String) (c : SquishyID)
    (h : SquishyID.new key = .ok c) (v : Nat) :
    (c.encode v).toList ≠ [] ∧
    (∀ ch ∈ (c.encode v).toList, ch ∈ c.positions_to_characters) ∧
    c.encode 0 = String.mk [c.positions_to_characters.getD 0 'a'] :=
  ⟨encode_toList_ne_nil c v, encode_chars_mem c v, encode_zero c⟩

theorem claim_c7_encode_total_witness :
    (cAB.encode 5).toList ≠ [] ∧
    (∀ ch ∈ (cAB.encode 5).toList, ch ∈ cAB.positions_to_characters) ∧
    cAB.encode 0 = String.mk [cAB.positions_to_characters.getD 0 'a'] :=
  claim_c7_encode_total "ab" cAB rfl 5

/-- Claim C8: for a constructed codec the two tables are exact mutual
inverses on digit values below the base: the table of characters is the
key in order of appearance, looking up the character stored at index `i`
returns `i`, and any character mapped to `i` is the character stored at
index `i` (with `i` below the base). -/
theorem claim_c8_inverse_tables (key : String) (c : SquishyID)
    (h : SquishyID.new key = .ok c) :
    c.positions_to_characters = key.toList ∧
    (∀ i, i < c.length →
      c.characters_to_positions (c.positions_to_characters.getD i 'a') =
        some i) ∧
    (∀ ch i, c.characters_to_positions ch = some i →
      i < c.length ∧ c.positions_to_characters.getD i 'a' = ch) := by
  obtain ⟨hlen, htab, _⟩ := new_ok_fields key c h
  refine ⟨htab, ?_, ?_⟩
  · intro i hi
    exact table_getD_factor key c h i hi
  · intro ch i hchi
    obtain ⟨hj, hget⟩ := new_ok_lookup_inv key c h ch i hchi
    refine ⟨by omega, ?_⟩
    rw [htab, List.getD_eq_getElem _ _ hj]
    exact hget

theorem claim_c8_inverse_tables_witness :
    cAB.positions_to_characters = "ab".toList ∧
    (∀ i, i < cAB.length →
      cAB.characters_to_positions (cAB.positions_to_characters.getD i 'a') =
        some i) ∧
    (∀ ch i, cAB.characters_to_positions ch = some i →
      i < cAB.length ∧ cAB.positions_to_characters.getD i 'a' = ch) :=
  claim_c8_inverse_tables "ab" cAB rfl

/-- Claim C9: there is a constructed codec and a non-empty string of key
characters whose mathematical value fits in u64 (here 65 zero digits,
value 0), on which decode nevertheless fails with the overflow error: the
checked power `2 ^ 64` overflows before its zero digit is multiplied in.
So decode success is not equivalent to the represented value fitting. -/
theorem claim_c9_overflow_small_value :
    SquishyID.new "ab" = .ok cAB ∧
    (String.mk (List.replicate 65 'a')).toList ≠ [] ∧
    (∀ ch ∈ (String.mk (List.replicate 65 'a')).toList,
      ch ∈ cAB.positions_to_characters) ∧
    strVal cAB (String.mk (List.replicate 65 'a')) = 0 ∧
    strVal cAB (String.mk (List.replicate 65 'a')) ≤ U64_MAX ∧
    cAB.decode (String.mk (List.replicate 65 'a')) =
      .error "Encoded value too big to decode." := by
  have h0 : strVal cAB (String.mk (List.replicate 65 'a')) = 0 := by decide
  refine ⟨rfl, by simp, by decide, h0, ?_, rfl⟩
  rw [h0]
  exact Nat.zero_le _

/-- Claim C10: encode is a total function on constructed codecs: the value
at loop iteration `k` is `v / base ^ k`, so every index taken modulo the
base is strictly below the lookup table's length (the indexing never goes
out of bounds), and the loop terminates for every input, producing at most
`v + 1` digits (each division by a base of at least 2 strictly decreases a
non-zero value) and at least one digit. -/
theorem claim_c10_encode_safe (key : String) (c : SquishyID)
    (h : SquishyID.new key = .ok c) (v : Nat) :
    (∀ k, (v / c.length ^ k) % c.length <
      c.positions_to_characters.length) ∧
    (c.encode v).toList.length ≤ v + 1 ∧
    (c.encode v).toList ≠ [] := by
  have hb := c.two_le_length
  refine ⟨?_, ?_, encode_toList_ne_nil c v⟩
  · intro k
    rw [c.table_length]
    exact Nat.mod_lt _ (by omega)
  · rw [encode_toList]
    simpa using encodeLoop_length_le c v

theorem claim_c10_encode_safe_witness :
    (∀ k, (5 / cAB.length ^ k) % cAB.length <
      cAB.positions_to_characters.length) ∧
    (cAB.encode 5).toList.length ≤ 5 + 1 ∧
    (cAB.encode 5).toList ≠ [] :=
  claim_c10_encode_safe "ab" cAB rfl 5
